import Mathlib

/-!
Verification of the promise-utils library: a shallow embedding of the
priority task queue (`PromiseQueue`) and the retry controller
(`RetryController`), with theorems settling the specified properties.

JS numbers that may be `Number.POSITIVE_INFINITY` are modelled by `QInf`
(a finite rational or positive infinity); plain finite numbers by `ℚ`.
Asynchronous execution is modelled as the cooperative single-threaded
state machine the spec describes: each bookkeeping step of the source is
a pure state transition, and timers live in an explicit timer table.
-/

namespace PromiseUtils

/-- A JS number that is either a finite rational or `Number.POSITIVE_INFINITY`. -/
inductive QInf where
  | fin (q : ℚ)
  | inf
deriving DecidableEq, Repr

namespace QInf

/-- Comparison `x < m` for finite `x` and possibly-infinite `m`. -/
def finLt (x : ℚ) (m : QInf) : Bool :=
  match m with
  | .fin q => decide (x < q)
  | .inf => true

/-- Comparison `x ≤ m` for finite `x` and possibly-infinite `m`. -/
def finLe (x : ℚ) (m : QInf) : Bool :=
  match m with
  | .fin q => decide (x ≤ q)
  | .inf => true

/-- Comparison `m ≤ x` for possibly-infinite `m` and finite `x`. -/
def leFin (m : QInf) (x : ℚ) : Bool :=
  match m with
  | .fin q => decide (q ≤ x)
  | .inf => false

/-- Comparison `m < x` for possibly-infinite `m` and finite `x`. -/
def ltFin (m : QInf) (x : ℚ) : Bool :=
  match m with
  | .fin q => decide (q < x)
  | .inf => false

/-- Test `m < 0`, as used by the constructor validations. -/
def ltZero (m : QInf) : Bool := ltFin m 0

/-- Test `m ≤ 0`, as used by the `maxRetryCount` validation. -/
def leZero (m : QInf) : Bool := leFin m 0

/-- JS `Math.min x m` where the second argument may be infinite. -/
def jsMin (x : ℚ) (m : QInf) : ℚ :=
  match m with
  | .fin q => min x q
  | .inf => x

end QInf

/-- JS `Math.round` on a rational: round half up, as JS does. -/
def jsRound (x : ℚ) : ℚ := ((⌊x + 1/2⌋ : ℤ) : ℚ)

/-! ## The priority queue (`PromiseQueue`, src/unnamed/part_001)

A pending queue entry: its `priority` option and, as an identity standing
for the wrapped `run` closure, the submission sequence number `seq`
(entries are submitted one at a time, so `seq` records FIFO order). -/

structure Entry where
  priority : ℤ
  seq : ℕ
deriving DecidableEq, Repr

/-- The `lowerBound` binary-search loop (src/unnamed/part_001, lines 83-100),
specialised to the comparator `(a, b) => b.priority - a.priority` used by
`#enqueue`.  `comparator(array[it], value) <= 0` is
`value.priority - array[it].priority <= 0`.  The loop's `count` strictly
decreases each iteration, so an iteration budget of the initial `count`
(the array length) is exact: with `count ≤ fuel`, fuel runs out only when
`count = 0`, which is the loop's own exit condition. -/
def lowerBoundAux (array : List Entry) (value : Entry) : ℕ → ℕ → ℕ → ℕ
  | 0, first, _count => first
  | fuel + 1, first, count =>
    if count = 0 then first
    else
      let step := count / 2
      let it := first + step
      if value.priority - (array.getD it ⟨0, 0⟩).priority ≤ 0 then
        lowerBoundAux array value fuel (it + 1) (count - step - 1)
      else
        lowerBoundAux array value fuel first step

/-- The call `lowerBound(array, value, comparator)` as made from `#enqueue`. -/
def lowerBound (array : List Entry) (value : Entry) : ℕ :=
  lowerBoundAux array value array.length 0 array.length

/-- Method `PromiseQueue.#enqueue` (src/unnamed/part_001, lines 156-177): fast-path
append when the new priority does not beat the last element, otherwise a
binary-search insertion (`splice(index, 0, element)`). -/
def enqueue (queue : List Entry) (e : Entry) : List Entry :=
  if queue ≠ [] ∧ e.priority ≤ (queue.getLastD ⟨0, 0⟩).priority then
    queue ++ [e]
  else
    let index := lowerBound queue e
    queue.take index ++ e :: queue.drop index

/-- Method `PromiseQueue.#dequeue` (lines 179-182): `shift()` removes the front. -/
def dequeue (queue : List Entry) : Option Entry × List Entry :=
  match queue with
  | [] => (none, [])
  | e :: rest => (some e, rest)

/-- The queue's mutable state (`#queue`, `#pending`, `#concurrency`,
`#isPaused`), plus two ghost fields: `nextSeq`, the number of submissions
so far (source of fresh `seq` values), and `started`, the log of entries
dequeued for execution in `active` order. -/
structure QSys where
  queue : List Entry
  pending : ℕ
  concurrency : QInf
  isPaused : Bool
  nextSeq : ℕ
  started : List Entry
deriving DecidableEq, Repr

/-- Method `PromiseQueue.#tryToStartAnother` (lines 194-221).  Starting a job runs
its wrapper synchronously up to the first await, so `#pending++` happens
here; the dequeued entry is appended to the ghost `started` log (the
`active` notification order). -/
def tryToStartAnother (s : QSys) : Bool × QSys :=
  if s.queue.length = 0 then
    (false, s)
  else if s.isPaused = false ∧ QInf.finLt (s.pending : ℚ) s.concurrency then
    match s.queue with
    | [] => (false, s)
    | e :: rest =>
      (true, { s with queue := rest, pending := s.pending + 1, started := s.started ++ [e] })
  else
    (false, s)

theorem tryToStartAnother_queue_length {s s' : QSys}
    (h : tryToStartAnother s = (true, s')) : s'.queue.length + 1 = s.queue.length := by
  unfold tryToStartAnother at h
  split at h
  · exact absurd (congrArg Prod.fst h) (by simp)
  · split at h
    · match hq : s.queue, h with
      | e :: rest, h =>
        cases h
        simp
    · exact absurd (congrArg Prod.fst h) (by simp)

/-- The `while (tryToStartAnother()) {}` loop of `#processQueue`, with an
iteration bound: each `true` iteration shortens `#queue` by one, so the
loop iterates at most `#queue.length` times.  When the bound is exhausted
the queue is empty, and a further iteration would return `false` leaving
the state unchanged, so stopping is exact (`processQueueAux_extra_fuel`). -/
def processQueueAux : ℕ → QSys → QSys
  | 0, s => s
  | fuel + 1, s =>
    match tryToStartAnother s with
    | (true, s') => processQueueAux fuel s'
    | (false, s') => s'

/-- Method `PromiseQueue.#processQueue` (lines 223-225): `while (tryToStartAnother()) {}`. -/
def processQueue (s : QSys) : QSys := processQueueAux s.queue.length s

theorem tryToStartAnother_false {s s' : QSys}
    (h : tryToStartAnother s = (false, s')) : s' = s := by
  unfold tryToStartAnother at h
  split at h
  · cases h; rfl
  · split at h
    · match hq : s.queue, h with
      | [], h => cases h; rfl
    · cases h; rfl

theorem tryToStartAnother_empty {s : QSys} (h : s.queue = []) :
    tryToStartAnother s = (false, s) := by
  unfold tryToStartAnother
  rw [if_pos (by simp [h])]

/-- Extra fuel beyond `#queue.length` does not change the loop's result. -/
theorem processQueueAux_extra_fuel :
    ∀ (fuel : ℕ) (s : QSys), s.queue.length ≤ fuel →
      processQueueAux fuel s = processQueueAux s.queue.length s
  | 0, s, hs => by
    rw [Nat.le_zero.mp hs]
  | n + 1, s, hs => by
    match hq : s.queue.length with
    | 0 =>
      have hnil : s.queue = [] := List.length_eq_zero.mp hq
      simp only [processQueueAux, tryToStartAnother_empty hnil]
    | m + 1 =>
      simp only [processQueueAux]
      cases h : tryToStartAnother s with
      | mk b s' =>
        cases b with
        | false => rfl
        | true =>
          have hlen : s'.queue.length + 1 = s.queue.length := tryToStartAnother_queue_length h
          have h1 : s'.queue.length ≤ n := by omega
          have h2 : s'.queue.length ≤ m := by omega
          show processQueueAux n s' = processQueueAux m s'
          rw [processQueueAux_extra_fuel n s' h1, processQueueAux_extra_fuel m s' h2]
termination_by fuel => fuel
decreasing_by
  all_goals omega

/-- The loop unfolding: `#processQueue` runs `#tryToStartAnother` once and,
if a job was started, loops on the new state. -/
theorem processQueue_unfold (s : QSys) :
    processQueue s =
      match tryToStartAnother s with
      | (true, s') => processQueue s'
      | (false, s') => s' := by
  unfold processQueue
  match hq : s.queue.length with
  | 0 =>
    have hnil : s.queue = [] := List.length_eq_zero.mp hq
    rw [tryToStartAnother_empty hnil]
    simp [processQueueAux]
  | m + 1 =>
    simp only [processQueueAux]
    match h : tryToStartAnother s with
    | (true, s') =>
      have hlen : s'.queue.length + 1 = s.queue.length := tryToStartAnother_queue_length h
      exact processQueueAux_extra_fuel m s' (by omega)
    | (false, s') => rfl

/-- The `concurrency` setter (lines 243-251): throws a `TypeError` unless the
new value is a number `>= 1`; otherwise stores it and runs `#processQueue`. -/
def setConcurrency (c : QInf) (s : QSys) : Except String QSys :=
  if QInf.finLe 1 c = false then
    .error "concurrency error"
  else
    .ok (processQueue { s with concurrency := c })

/-- The externally observable queue operations of the claims.  `complete`
is the settlement of one in-flight task (its `finally` runs `#next`). -/
inductive QOp where
  | add (p : ℤ)
  | complete
  | start
  | pause
  | clear
  | setConc (c : QInf)
deriving DecidableEq, Repr

/-- One cooperative step of the queue.  `add` is `#enqueue` followed by one
`#tryToStartAnother` (lines 261-295); `complete` is `#next` (lines 188-192):
`#pending--` then one `#tryToStartAnother`; `start`/`pause`/`clear` are
lines 323-350; `setConc` is the `concurrency` setter, whose `TypeError`
propagates to the caller leaving the state unchanged. -/
def applyOp (s : QSys) (op : QOp) : QSys :=
  match op with
  | .add p =>
    let s1 := { s with queue := enqueue s.queue ⟨p, s.nextSeq⟩, nextSeq := s.nextSeq + 1 }
    (tryToStartAnother s1).2
  | .complete =>
    if s.pending = 0 then s
    else (tryToStartAnother { s with pending := s.pending - 1 }).2
  | .start =>
    if s.isPaused then processQueue { s with isPaused := false } else s
  | .pause => { s with isPaused := true }
  | .clear => { s with queue := [] }
  | .setConc c =>
    match setConcurrency c s with
    | .ok s' => s'
    | .error _ => s

/-- A freshly constructed queue (constructor, lines 141-154) with a validated
concurrency and `autoStart` flag; `#isPaused = (autoStart === false)`. -/
def initQueue (c : QInf) (autoStart : Bool) : QSys :=
  { queue := [], pending := 0, concurrency := c, isPaused := autoStart = false,
    nextSeq := 0, started := [] }

/-- Running a sequence of queue operations. -/
def runOps (ops : List QOp) (s : QSys) : QSys := ops.foldl applyOp s

/-! ### `addAll` aggregation (lines 305-316)

Each task is submitted independently; its eventual outcome is an
`Except ε α`.  `Promise.allSettled` and `Promise.all` are the host
aggregation primitives, modelled by their settled-outcome semantics over
the list of per-task outcomes. -/

/-- One `PromiseSettledResult`. -/
inductive SettledResult (ε α : Type) where
  | fulfilled (value : α)
  | rejected (reason : ε)
deriving DecidableEq, Repr

/-- The settlement record of one outcome. -/
def settleOutcome {ε α : Type} (x : Except ε α) : SettledResult ε α :=
  match x with
  | .ok a => .fulfilled a
  | .error e => .rejected e

/-- Host `Promise.allSettled`: captures every outcome, never rejects. -/
def promiseAllSettled {ε α : Type} (xs : List (Except ε α)) : List (SettledResult ε α) :=
  xs.map settleOutcome

/-- Host `Promise.all`: resolves with all values, or rejects with the first
rejection. -/
def promiseAll {ε α : Type} : List (Except ε α) → Except ε (List α)
  | [] => .ok []
  | x :: rest =>
    match x with
    | .error e => .error e
    | .ok a =>
      match promiseAll rest with
      | .error e => .error e
      | .ok as => .ok (a :: as)

/-- The aggregate value an `addAll` future resolves with. -/
inductive AddAllResult (ε α : Type) where
  | values (vs : List α)
  | settled (rs : List (SettledResult ε α))
deriving DecidableEq, Repr

/-- Option `AddAllOptions.failFast` (lines 38-46): `true = Promise.all,
false = Promise.allSettled`, default `false`. -/
structure AddAllOptions where
  failFast : Bool := false
deriving DecidableEq, Repr

/-- Method `PromiseQueue.addAll` (lines 305-316): the aggregate future's outcome,
given the per-task outcomes. -/
def addAll {ε α : Type} (xs : List (Except ε α)) (o : AddAllOptions) :
    Except ε (AddAllResult ε α) :=
  if o.failFast then (promiseAll xs).map .values
  else .ok (.settled (promiseAllSettled xs))

/-! ### The ordering invariant of the pending list

`entryBefore a b` is the order the spec claims for the pending list: `a`
may sit in front of `b` iff `a` has strictly higher priority, or equal
priority and earlier submission. -/

def entryBefore (a b : Entry) : Prop :=
  b.priority < a.priority ∨ (a.priority = b.priority ∧ a.seq < b.seq)

/-- The pending list is sorted by priority descending, FIFO among equal
priorities. -/
def SortedQueue (l : List Entry) : Prop := l.Pairwise entryBefore

/-- Priorities are non-increasing along the list. -/
def PrioDesc (l : List Entry) : Prop :=
  l.Pairwise (fun a b => b.priority ≤ a.priority)

theorem SortedQueue.prioDesc {l : List Entry} (h : SortedQueue l) : PrioDesc l :=
  h.imp (fun hab => by
    rcases hab with h1 | ⟨h1, _⟩
    · exact le_of_lt h1
    · exact le_of_eq h1.symm)

theorem getD_mem {l : List Entry} {i : ℕ} (h : i < l.length) (d : Entry) :
    l.getD i d ∈ l := by
  induction l generalizing i with
  | nil => simp at h
  | cons a t ih =>
    match i with
    | 0 => exact List.mem_cons_self a t
    | i + 1 => exact List.mem_cons_of_mem a (ih (by simpa using h))

theorem mem_getD {l : List Entry} {a : Entry} (h : a ∈ l) (d : Entry) :
    ∃ i, i < l.length ∧ l.getD i d = a := by
  induction l with
  | nil => simp at h
  | cons x t ih =>
    rcases List.mem_cons.mp h with rfl | hx
    · exact ⟨0, by simp, rfl⟩
    · obtain ⟨i, hi, hget⟩ := ih hx
      exact ⟨i + 1, by simpa using hi, hget⟩

theorem mem_take_getD {l : List Entry} {r : ℕ} {a : Entry} (h : a ∈ l.take r) (d : Entry) :
    ∃ i, i < r ∧ i < l.length ∧ l.getD i d = a := by
  induction l generalizing r with
  | nil => simp at h
  | cons x t ih =>
    match r with
    | 0 => simp at h
    | r + 1 =>
      rcases List.mem_cons.mp h with rfl | hx
      · exact ⟨0, by omega, by simp, rfl⟩
      · obtain ⟨i, hi, hlen, hget⟩ := ih hx
        exact ⟨i + 1, by omega, by simpa using hlen, hget⟩

theorem mem_drop_getD {l : List Entry} {r : ℕ} {a : Entry} (h : a ∈ l.drop r) (d : Entry) :
    ∃ i, r ≤ i ∧ i < l.length ∧ l.getD i d = a := by
  induction l generalizing r with
  | nil => simp at h
  | cons x t ih =>
    match r with
    | 0 =>
      have h0 : a ∈ x :: t := by rw [List.drop_zero] at h; exact h
      obtain ⟨i, hi, hget⟩ := mem_getD h0 d
      exact ⟨i, by omega, hi, hget⟩
    | r + 1 =>
      obtain ⟨i, hi, hlen, hget⟩ := ih (by simpa using h)
      exact ⟨i + 1, by omega, by simpa using hlen, hget⟩

/-- On a priority-descending list the entry at a later index has priority
at most that of an earlier index. -/
theorem prioDesc_getD_le (d : Entry) :
    ∀ (l : List Entry), PrioDesc l → ∀ i j : ℕ, i ≤ j → j < l.length →
      (l.getD j d).priority ≤ (l.getD i d).priority
  | [], _, i, j, _, hj => by simp at hj
  | x :: t, h, 0, 0, _, _ => le_refl _
  | x :: t, h, 0, j + 1, _, hj => by
    have hx : ∀ b ∈ t, b.priority ≤ x.priority := (List.pairwise_cons.mp h).1
    exact hx _ (getD_mem (by simpa using hj) d)
  | x :: t, h, i + 1, j + 1, hij, hj =>
    prioDesc_getD_le d t (List.pairwise_cons.mp h).2 i j (by omega) (by simpa using hj)

theorem getLastD_mem (l : List Entry) (d : Entry) (h : l ≠ []) : l.getLastD d ∈ l := by
  match l with
  | x :: t =>
    rw [List.getLastD_cons]
    exact List.getLastD_mem_cons t x

/-- The last element of a priority-descending list has minimal priority. -/
theorem prioDesc_getLastD_le :
    ∀ (l : List Entry), PrioDesc l → ∀ a, a ∈ l → ∀ d : Entry,
      (l.getLastD d).priority ≤ a.priority
  | x :: t, h, a, ha, d => by
    rw [List.getLastD_cons]
    match t, ha with
    | [], ha =>
      have hax : a = x := by simpa using ha
      subst hax
      exact le_refl _
    | y :: t1, ha =>
      have hx : ∀ b ∈ y :: t1, b.priority ≤ x.priority := (List.pairwise_cons.mp h).1
      rcases List.mem_cons.mp ha with hax | hat
      · rw [hax]
        exact hx _ (getLastD_mem (y :: t1) x (by simp))
      · exact prioDesc_getLastD_le (y :: t1) (List.pairwise_cons.mp h).2 a hat x

/-- The boundary property of the binary search: with consistent
pre/post-conditions on the search window, the returned index separates the
entries with priority `≥ e.priority` (all strictly before it) from those
with priority `< e.priority` (all at or after it). -/
theorem lowerBoundAux_spec (l : List Entry) (e : Entry) :
    ∀ (fuel first count : ℕ), count ≤ fuel → first + count ≤ l.length →
      PrioDesc l →
      (∀ i, i < first → i < l.length → e.priority ≤ (l.getD i ⟨0, 0⟩).priority) →
      (∀ i, first + count ≤ i → i < l.length → (l.getD i ⟨0, 0⟩).priority < e.priority) →
      (∀ i, i < lowerBoundAux l e fuel first count → i < l.length →
          e.priority ≤ (l.getD i ⟨0, 0⟩).priority) ∧
      (∀ i, lowerBoundAux l e fuel first count ≤ i → i < l.length →
          (l.getD i ⟨0, 0⟩).priority < e.priority)
  | 0, first, count, hfc, hlen, hdesc, hpre, hpost => by
    have hc : count = 0 := Nat.le_zero.mp hfc
    subst hc
    simp only [lowerBoundAux]
    exact ⟨fun i hi hil => hpre i hi hil, fun i hi hil => hpost i (by omega) hil⟩
  | fuel + 1, first, count, hfc, hlen, hdesc, hpre, hpost => by
    simp only [lowerBoundAux]
    by_cases hc : count = 0
    · rw [if_pos hc]
      subst hc
      exact ⟨fun i hi hil => hpre i hi hil, fun i hi hil => hpost i (by omega) hil⟩
    · rw [if_neg hc]
      have hit : first + count / 2 < l.length := by omega
      by_cases hcond : e.priority - (l.getD (first + count / 2) ⟨0, 0⟩).priority ≤ 0
      · rw [if_pos hcond]
        have hle : e.priority ≤ (l.getD (first + count / 2) ⟨0, 0⟩).priority :=
          sub_nonpos.mp hcond
        exact lowerBoundAux_spec l e fuel (first + count / 2 + 1) (count - count / 2 - 1)
          (by omega) (by omega) hdesc
          (fun i hi hil => by
            rcases Nat.lt_or_ge i first with hif | hif
            · exact hpre i hif hil
            · exact le_trans hle
                (prioDesc_getD_le ⟨0, 0⟩ l hdesc i (first + count / 2) (by omega) hit))
          (fun i hi hil => hpost i (by omega) hil)
      · rw [if_neg hcond]
        have hlt : (l.getD (first + count / 2) ⟨0, 0⟩).priority < e.priority := by omega
        exact lowerBoundAux_spec l e fuel first (count / 2)
          (by omega) (by omega) hdesc hpre
          (fun i hi hil =>
            lt_of_le_of_lt
              (prioDesc_getD_le ⟨0, 0⟩ l hdesc (first + count / 2) i (by omega) hil) hlt)

/-- The boundary property of `lowerBound` on a priority-descending list. -/
theorem lowerBound_spec (l : List Entry) (e : Entry) (hdesc : PrioDesc l) :
    (∀ i, i < lowerBound l e → i < l.length →
        e.priority ≤ (l.getD i ⟨0, 0⟩).priority) ∧
    (∀ i, lowerBound l e ≤ i → i < l.length →
        (l.getD i ⟨0, 0⟩).priority < e.priority) :=
  lowerBoundAux_spec l e l.length 0 l.length (le_refl _) (by omega) hdesc
    (fun i hi _ => absurd hi (by omega)) (fun i hi hil => absurd hil (by omega))

/-- Members of `enqueue l e` are members of `l` or `e` itself. -/
theorem enqueue_mem {l : List Entry} {e x : Entry} (h : x ∈ enqueue l e) :
    x ∈ l ∨ x = e := by
  unfold enqueue at h
  split at h
  · rcases List.mem_append.mp h with hx | hx
    · exact Or.inl hx
    · exact Or.inr (by simpa using hx)
  · rcases List.mem_append.mp h with hx | hx
    · exact Or.inl ((List.take_sublist _ _).subset hx)
    · rcases List.mem_cons.mp hx with rfl | hx
      · exact Or.inr rfl
      · exact Or.inl ((List.drop_sublist _ _).subset hx)

/-- Insertion by `#enqueue` preserves the order invariant whenever the new entry is
fresher than everything pending: both the fast append path and the
binary-search insertion place it after every entry of priority `≥` its own
and before every entry of strictly smaller priority. -/
theorem enqueue_sorted {l : List Entry} {e : Entry} (hs : SortedQueue l)
    (hfresh : ∀ x ∈ l, x.seq < e.seq) : SortedQueue (enqueue l e) := by
  have hdesc : PrioDesc l := hs.prioDesc
  have hbefore : ∀ a ∈ l, e.priority ≤ a.priority → entryBefore a e := by
    intro a ha hle
    rcases lt_or_eq_of_le hle with hlt | heq
    · exact Or.inl hlt
    · exact Or.inr ⟨heq.symm, hfresh a ha⟩
  unfold enqueue
  split
  · next hcond =>
    apply List.pairwise_append.mpr
    refine ⟨hs, List.pairwise_singleton _ _, ?_⟩
    intro a ha b hb
    have hb1 : b = e := by simpa using hb
    subst hb1
    exact hbefore a ha (le_trans hcond.2 (prioDesc_getLastD_le l hdesc a ha ⟨0, 0⟩))
  · next hcond =>
    obtain ⟨hlo, hhi⟩ := lowerBound_spec l e hdesc
    have hsplit : SortedQueue (l.take (lowerBound l e) ++ l.drop (lowerBound l e)) := by
      rw [List.take_append_drop]; exact hs
    have hcross := (List.pairwise_append.mp hsplit).2.2
    apply List.pairwise_append.mpr
    refine ⟨hs.sublist (List.take_sublist _ _), ?_, ?_⟩
    · apply List.pairwise_cons.mpr
      refine ⟨?_, hs.sublist (List.drop_sublist _ _)⟩
      intro b hb
      obtain ⟨i, hir, hil, hget⟩ := mem_drop_getD hb ⟨0, 0⟩
      exact Or.inl (hget ▸ hhi i hir hil)
    · intro a ha b hb
      rcases List.mem_cons.mp hb with hbe | hbd
      · obtain ⟨i, hir, hil, hget⟩ := mem_take_getD ha ⟨0, 0⟩
        rw [hbe]
        exact hbefore a ((List.take_sublist _ _).subset ha) (hget ▸ hlo i hir hil)
      · exact hcross a ha b hbd

theorem SortedQueue.tail {l : List Entry} (h : SortedQueue l) : SortedQueue l.tail := by
  match l with
  | [] => exact h
  | x :: t => exact (List.pairwise_cons.mp h).2

/-- The order invariant carried by every reachable queue state: the pending
list is sorted (priority descending, FIFO among equals) and every pending
entry was issued a submission number below `nextSeq`. -/
def QInv (s : QSys) : Prop :=
  SortedQueue s.queue ∧ ∀ x ∈ s.queue, x.seq < s.nextSeq

theorem tryToStartAnother_state (s : QSys) :
    ((tryToStartAnother s).2.queue = s.queue ∨ (tryToStartAnother s).2.queue = s.queue.tail)
    ∧ (tryToStartAnother s).2.nextSeq = s.nextSeq := by
  unfold tryToStartAnother
  split
  · exact ⟨Or.inl rfl, rfl⟩
  · split
    · cases hq : s.queue with
      | nil => exact ⟨Or.inl hq, rfl⟩
      | cons e rest => exact ⟨Or.inr rfl, rfl⟩
    · exact ⟨Or.inl rfl, rfl⟩

theorem QInv_tryToStart {s : QSys} (h : QInv s) : QInv (tryToStartAnother s).2 := by
  obtain ⟨hq, hn⟩ := tryToStartAnother_state s
  rcases hq with hq | hq
  · exact ⟨hq ▸ h.1, fun x hx => hn ▸ h.2 x (hq ▸ hx)⟩
  · refine ⟨hq ▸ h.1.tail, fun x hx => hn ▸ h.2 x ?_⟩
    rw [hq] at hx
    exact (List.tail_sublist _).subset hx

theorem QInv_processQueueAux :
    ∀ (fuel : ℕ) (s : QSys), QInv s → QInv (processQueueAux fuel s)
  | 0, _, h => h
  | fuel + 1, s, h => by
    simp only [processQueueAux]
    cases ht : tryToStartAnother s with
    | mk b s1 =>
      have hs1 : QInv s1 := by
        have hinv := QInv_tryToStart h
        rwa [ht] at hinv
      cases b with
      | true => exact QInv_processQueueAux fuel s1 hs1
      | false => exact hs1

theorem QInv_processQueue {s : QSys} (h : QInv s) : QInv (processQueue s) :=
  QInv_processQueueAux s.queue.length s h

theorem QInv_applyOp {s : QSys} (h : QInv s) (op : QOp) : QInv (applyOp s op) := by
  match op with
  | .add p =>
    have hs1 :
        QInv { s with queue := enqueue s.queue (Entry.mk p s.nextSeq), nextSeq := s.nextSeq + 1 } := by
      refine ⟨enqueue_sorted h.1 (fun x hx => h.2 x hx), fun x hx => ?_⟩
      rcases enqueue_mem hx with hxl | hxe
      · have hxs := h.2 x hxl
        show x.seq < s.nextSeq + 1
        omega
      · rw [hxe]
        show s.nextSeq < s.nextSeq + 1
        omega
    exact QInv_tryToStart hs1
  | .complete =>
    show QInv (if s.pending = 0 then s
      else (tryToStartAnother { s with pending := s.pending - 1 }).2)
    split
    · exact h
    · exact QInv_tryToStart ⟨h.1, h.2⟩
  | .start =>
    show QInv (if s.isPaused then processQueue { s with isPaused := false } else s)
    split
    · exact QInv_processQueue ⟨h.1, h.2⟩
    · exact h
  | .pause => exact ⟨h.1, h.2⟩
  | .clear => exact ⟨List.Pairwise.nil, fun x hx => absurd hx (List.not_mem_nil x)⟩
  | .setConc c =>
    show QInv (match setConcurrency c s with
      | .ok s1 => s1
      | .error _ => s)
    unfold setConcurrency
    by_cases hc : QInf.finLe 1 c = false
    · rw [if_pos hc]
      exact h
    · rw [if_neg hc]
      exact QInv_processQueue ⟨h.1, h.2⟩

theorem QInv_runOps (ops : List QOp) {s : QSys} (h : QInv s) : QInv (runOps ops s) := by
  induction ops generalizing s with
  | nil => exact h
  | cons op rest ih => exact ih (QInv_applyOp h op)

/-- Case analysis of one `#tryToStartAnother` step: either nothing starts
and the state is unchanged, or the queue was non-empty, the queue was not
paused, the concurrency check `#pending < #concurrency` passed, and one
job started (`#pending` grew by one; limit and pause flag untouched). -/
theorem tryToStartAnother_cases (s : QSys) :
    ((tryToStartAnother s).1 = false ∧ (tryToStartAnother s).2 = s)
    ∨ ((tryToStartAnother s).1 = true ∧ s.isPaused = false
        ∧ QInf.finLt (s.pending : ℚ) s.concurrency = true
        ∧ (tryToStartAnother s).2.pending = s.pending + 1
        ∧ (tryToStartAnother s).2.concurrency = s.concurrency
        ∧ (tryToStartAnother s).2.isPaused = s.isPaused) := by
  unfold tryToStartAnother
  split
  · exact Or.inl ⟨rfl, rfl⟩
  · split
    · next hcond =>
      cases hq : s.queue with
      | nil => exact Or.inl ⟨rfl, rfl⟩
      | cons e rest =>
        exact Or.inr ⟨rfl, hcond.1, hcond.2, rfl, rfl, hcond.1 ▸ rfl⟩
    · exact Or.inl ⟨rfl, rfl⟩

theorem processQueueAux_concurrency :
    ∀ (fuel : ℕ) (s : QSys), (processQueueAux fuel s).concurrency = s.concurrency
  | 0, _ => rfl
  | fuel + 1, s => by
    simp only [processQueueAux]
    cases ht : tryToStartAnother s with
    | mk b s1 =>
      have hcases := tryToStartAnother_cases s
      rw [ht] at hcases
      cases b with
      | false =>
        rcases hcases with ⟨_, h2⟩ | ⟨h1, _⟩
        · show s1.concurrency = s.concurrency
          rw [show s1 = s from h2]
        · exact absurd h1 (by simp)
      | true =>
        rcases hcases with ⟨h1, _⟩ | ⟨_, _, _, _, hconc, _⟩
        · exact absurd h1 (by simp)
        · show (processQueueAux fuel s1).concurrency = s.concurrency
          rw [processQueueAux_concurrency fuel s1]
          exact hconc

theorem processQueueAux_pending_ge :
    ∀ (fuel : ℕ) (s : QSys), s.pending ≤ (processQueueAux fuel s).pending
  | 0, _ => le_refl _
  | fuel + 1, s => by
    simp only [processQueueAux]
    cases ht : tryToStartAnother s with
    | mk b s1 =>
      have hcases := tryToStartAnother_cases s
      rw [ht] at hcases
      cases b with
      | false =>
        rcases hcases with ⟨_, h2⟩ | ⟨h1, _⟩
        · show s.pending ≤ s1.pending
          rw [show s1 = s from h2]
        · exact absurd h1 (by simp)
      | true =>
        rcases hcases with ⟨h1, _⟩ | ⟨_, _, _, hpend, _, _⟩
        · exact absurd h1 (by simp)
        · have hp : s1.pending = s.pending + 1 := hpend
          have hrec := processQueueAux_pending_ge fuel s1
          show s.pending ≤ (processQueueAux fuel s1).pending
          omega

/-! ### The concurrency-ceiling invariant (claim C2)

`concWhole c` says the limit is a positive whole number or infinity, the
domain the spec describes for it.  `PendingOk` is the claimed invariant
`#pending <= #concurrency`.  `opSafe`/`ConcSafe` restrict a trace to never
hand the setter a (valid) new limit that is fractional or below the
in-flight count at that moment — the repairs the counterexample forces. -/

def concWhole : QInf → Bool
  | .fin q => decide (q.den = 1 ∧ 1 ≤ q.num)
  | .inf => true

def PendingOk (s : QSys) : Prop :=
  QInf.finLe (s.pending : ℚ) s.concurrency = true

def opSafe (s : QSys) : QOp → Bool
  | QOp.setConc c =>
    if QInf.finLe 1 c = true then
      concWhole c && QInf.finLe (s.pending : ℚ) c
    else true
  | _ => true

def ConcSafe : QSys → List QOp → Bool
  | _, [] => true
  | s, op :: rest => opSafe s op && ConcSafe (applyOp s op) rest

theorem finLe_mono {x y : ℚ} {m : QInf} (hxy : x ≤ y) (h : QInf.finLe y m = true) :
    QInf.finLe x m = true := by
  cases m with
  | fin q =>
    simp only [QInf.finLe, decide_eq_true_eq] at h ⊢
    exact le_trans hxy h
  | inf => rfl

/-- A passed `#pending < #concurrency` check keeps `#pending + 1` under
a whole (or infinite) limit. -/
theorem finLt_succ_le {p : ℕ} {m : QInf} (hI : concWhole m = true)
    (h : QInf.finLt (p : ℚ) m = true) : QInf.finLe ((p + 1 : ℕ) : ℚ) m = true := by
  cases m with
  | fin q =>
    simp only [concWhole, decide_eq_true_eq] at hI
    simp only [QInf.finLt, decide_eq_true_eq] at h
    simp only [QInf.finLe, decide_eq_true_eq]
    obtain ⟨hden, hnum⟩ := hI
    have hq : ((q.num : ℚ)) = q := by
      rw [← Rat.den_eq_one_iff]
      exact hden
    rw [← hq] at h ⊢
    have hpq : (p : ℤ) < q.num := by exact_mod_cast h
    have hple : ((p : ℤ) + 1) ≤ q.num := by omega
    push_cast
    exact_mod_cast hple
  | inf => rfl

def C2Inv (s : QSys) : Prop := PendingOk s ∧ concWhole s.concurrency = true

theorem C2Inv_tryToStart {s : QSys} (h : C2Inv s) : C2Inv (tryToStartAnother s).2 := by
  rcases tryToStartAnother_cases s with ⟨_, h2⟩ | ⟨_, _, hlt, hpend, hconc, _⟩
  · rw [h2]; exact h
  · constructor
    · show QInf.finLe _ _ = true
      rw [hpend, hconc]
      exact finLt_succ_le h.2 hlt
    · rw [hconc]; exact h.2

theorem C2Inv_processQueueAux :
    ∀ (fuel : ℕ) (s : QSys), C2Inv s → C2Inv (processQueueAux fuel s)
  | 0, _, h => h
  | fuel + 1, s, h => by
    simp only [processQueueAux]
    cases ht : tryToStartAnother s with
    | mk b s1 =>
      have hs1 : C2Inv s1 := by
        have hinv := C2Inv_tryToStart h
        rwa [ht] at hinv
      cases b with
      | true => exact C2Inv_processQueueAux fuel s1 hs1
      | false => exact hs1

theorem C2Inv_applyOp {s : QSys} (h : C2Inv s) (op : QOp)
    (hop : opSafe s op = true) : C2Inv (applyOp s op) := by
  match op with
  | .add p =>
    exact C2Inv_tryToStart ⟨h.1, h.2⟩
  | .complete =>
    show C2Inv (if s.pending = 0 then s
      else (tryToStartAnother { s with pending := s.pending - 1 }).2)
    split
    · exact h
    · refine C2Inv_tryToStart ⟨?_, h.2⟩
      show QInf.finLe ((s.pending - 1 : ℕ) : ℚ) s.concurrency = true
      exact finLe_mono (by exact_mod_cast Nat.sub_le s.pending 1) h.1
  | .start =>
    show C2Inv (if s.isPaused then processQueue { s with isPaused := false } else s)
    split
    · exact C2Inv_processQueueAux _ _ ⟨h.1, h.2⟩
    · exact h
  | .pause => exact ⟨h.1, h.2⟩
  | .clear => exact ⟨h.1, h.2⟩
  | .setConc c =>
    show C2Inv (match setConcurrency c s with
      | .ok s1 => s1
      | .error _ => s)
    have hop2 : (if QInf.finLe 1 c = true then
        concWhole c && QInf.finLe (s.pending : ℚ) c
      else true) = true := hop
    unfold setConcurrency
    by_cases hc : QInf.finLe 1 c = false
    · rw [if_pos hc]
      exact h
    · rw [if_neg hc]
      have hct : QInf.finLe 1 c = true := by
        cases hcc : QInf.finLe 1 c
        · exact absurd hcc hc
        · rfl
      rw [if_pos hct] at hop2
      have hsplit : concWhole c = true ∧ QInf.finLe (s.pending : ℚ) c = true := by
        simpa using hop2
      exact C2Inv_processQueueAux _ _ ⟨hsplit.2, hsplit.1⟩

theorem C2Inv_runOps :
    ∀ (ops : List QOp) (s : QSys), C2Inv s → ConcSafe s ops = true →
      C2Inv (runOps ops s)
  | [], _, h, _ => h
  | op :: rest, s, h, hsafe => by
    have hsplit : opSafe s op = true ∧ ConcSafe (applyOp s op) rest = true := by
      have h2 : (opSafe s op && ConcSafe (applyOp s op) rest) = true := hsafe
      simpa using h2
    exact C2Inv_runOps rest (applyOp s op) (C2Inv_applyOp h op hsplit.1) hsplit.2

theorem setConcurrency_ok {c : QInf} {s s1 : QSys}
    (h : setConcurrency c s = Except.ok s1) :
    QInf.finLe 1 c = true ∧ s1 = processQueue { s with concurrency := c } := by
  unfold setConcurrency at h
  split at h
  · cases h
  · next hc =>
    cases h
    constructor
    · cases hb : QInf.finLe 1 c with
      | false => exact absurd hb hc
      | true => rfl
    · rfl

/-! ### Claims about the queue -/

/-- C1: along every operation sequence, the queue's pending list is at all
times sorted by descending priority with equal-priority entries in
submission (FIFO) order; `#dequeue` always removes the front element;
hence the drain order is non-increasing in priority and FIFO among equal
priorities. -/
theorem claim_C1 (c : QInf) (auto : Bool) (ops : List QOp) :
    SortedQueue (runOps ops (initQueue c auto)).queue
    ∧ (∀ l : List Entry, dequeue l = (l.head?, l.tail))
    ∧ (runOps ops (initQueue c auto)).queue.Pairwise
        (fun a b => b.priority ≤ a.priority ∧ (a.priority = b.priority → a.seq < b.seq)) := by
  have hinv : QInv (runOps ops (initQueue c auto)) :=
    QInv_runOps ops ⟨List.Pairwise.nil, fun x hx => absurd hx (List.not_mem_nil x)⟩
  refine ⟨hinv.1, ?_, ?_⟩
  · intro l
    cases l <;> rfl
  · refine hinv.1.imp ?_
    intro a b hab
    rcases hab with h1 | ⟨h1, h2⟩
    · exact ⟨le_of_lt h1, fun he => absurd he (by omega)⟩
    · exact ⟨le_of_eq h1.symm, fun _ => h2⟩

theorem claim_C1_witness :
    SortedQueue (runOps [QOp.add 10, QOp.add 10, QOp.add (-1), QOp.add 0, QOp.add 5]
        (initQueue (QInf.fin 2) false)).queue
    ∧ (∀ l : List Entry, dequeue l = (l.head?, l.tail))
    ∧ (runOps [QOp.add 10, QOp.add 10, QOp.add (-1), QOp.add 0, QOp.add 5]
        (initQueue (QInf.fin 2) false)).queue.Pairwise
        (fun a b => b.priority ≤ a.priority ∧ (a.priority = b.priority → a.seq < b.seq)) :=
  claim_C1 (QInf.fin 2) false [QOp.add 10, QOp.add 10, QOp.add (-1), QOp.add 0, QOp.add 5]

/-- C2 counterexample: with limit 2 and two tasks in flight, lowering the
limit to 1 (a legal assignment) reaches a quiescent state with
`pending = 2 > concurrency = 1`: the claimed invariant fails once the
limit is lowered below the in-flight count. -/
theorem claim_C2_counterexample :
    (runOps [QOp.add 0, QOp.add 0, QOp.setConc (QInf.fin 1)]
        (initQueue (QInf.fin 2) true)).pending = 2
    ∧ (runOps [QOp.add 0, QOp.add 0, QOp.setConc (QInf.fin 1)]
        (initQueue (QInf.fin 2) true)).concurrency = QInf.fin 1
    ∧ ¬ PendingOk (runOps [QOp.add 0, QOp.add 0, QOp.setConc (QInf.fin 1)]
        (initQueue (QInf.fin 2) true)) := by
  refine ⟨by decide, by decide, ?_⟩
  intro hok
  have hok2 : QInf.finLe
      ((runOps [QOp.add 0, QOp.add 0, QOp.setConc (QInf.fin 1)]
        (initQueue (QInf.fin 2) true)).pending : ℚ)
      (runOps [QOp.add 0, QOp.add 0, QOp.setConc (QInf.fin 1)]
        (initQueue (QInf.fin 2) true)).concurrency = true := hok
  exact absurd hok2 (by decide)

/-- C2 (amended): a dequeue happens only when `#pending < #concurrency`,
so `pending ≤ concurrency` holds at every reachable state of any trace
whose initial limit is a positive whole number or infinity and in which
the setter is never handed a valid new limit that is fractional or below
the then-current in-flight count; raising the limit immediately runs the
dequeue loop, and lowering it never reduces in-flight work. -/
theorem claim_C2 (c : QInf) (auto : Bool) (ops : List QOp)
    (hc : concWhole c = true)
    (hsafe : ConcSafe (initQueue c auto) ops = true) :
    PendingOk (runOps ops (initQueue c auto))
    ∧ (∀ s : QSys, (tryToStartAnother s).1 = true →
        QInf.finLt (s.pending : ℚ) s.concurrency = true)
    ∧ (∀ (s : QSys) (c1 : QInf), QInf.finLe 1 c1 = true →
        applyOp s (QOp.setConc c1) = processQueue { s with concurrency := c1 })
    ∧ (∀ (s : QSys) (c1 : QInf), s.pending ≤ (applyOp s (QOp.setConc c1)).pending) := by
  refine ⟨?_, ?_, ?_, ?_⟩
  · have h0 : PendingOk (initQueue c auto) := by
      show QInf.finLe ((0 : ℕ) : ℚ) c = true
      cases c with
      | fin q =>
        simp only [concWhole, decide_eq_true_eq] at hc
        simp only [QInf.finLe, decide_eq_true_eq]
        have hq : ((q.num : ℚ)) = q := by
          rw [← Rat.den_eq_one_iff]
          exact hc.1
        rw [← hq]
        have hnum : (0 : ℤ) ≤ q.num := by omega
        exact_mod_cast hnum
      | inf => rfl
    exact (C2Inv_runOps ops _ ⟨h0, hc⟩ hsafe).1
  · intro s htrue
    rcases tryToStartAnother_cases s with ⟨h1, _⟩ | ⟨_, _, hlt, _⟩
    · rw [htrue] at h1
      exact absurd h1 (by simp)
    · exact hlt
  · intro s c1 hc1
    show (match setConcurrency c1 s with
      | .ok s1 => s1
      | .error _ => s) = _
    unfold setConcurrency
    rw [if_neg (by simp [hc1])]
  · intro s c1
    show s.pending ≤ (match setConcurrency c1 s with
      | .ok s1 => s1
      | .error _ => s).pending
    cases hm : setConcurrency c1 s with
    | error e => exact le_refl _
    | ok s1 =>
      show s.pending ≤ s1.pending
      rw [(setConcurrency_ok hm).2]
      have hge := processQueueAux_pending_ge
        (({ s with concurrency := c1 } : QSys).queue.length) { s with concurrency := c1 }
      exact hge

theorem claim_C2_witness :
    (PendingOk (runOps [QOp.add 0, QOp.add 0, QOp.complete, QOp.setConc (QInf.fin 3), QOp.add 1]
        (initQueue (QInf.fin 2) true))
    ∧ (∀ s : QSys, (tryToStartAnother s).1 = true →
        QInf.finLt (s.pending : ℚ) s.concurrency = true)
    ∧ (∀ (s : QSys) (c1 : QInf), QInf.finLe 1 c1 = true →
        applyOp s (QOp.setConc c1) = processQueue { s with concurrency := c1 })
    ∧ (∀ (s : QSys) (c1 : QInf), s.pending ≤ (applyOp s (QOp.setConc c1)).pending)) :=
  claim_C2 (QInf.fin 2) true
    [QOp.add 0, QOp.add 0, QOp.complete, QOp.setConc (QInf.fin 3), QOp.add 1]
    (by decide) (by decide)

/-- The rational `3/2`, written as an explicit reduced fraction. -/
def qThreeHalves : ℚ := ⟨3, 2, by norm_num, by norm_num⟩

/-- C7 counterexample: assigning `1.5` — a number that is neither a
positive whole number nor the unbounded sentinel — signals no error: the
setter accepts it (`typeof n === 'number' && n >= 1`). -/
theorem claim_C7_counterexample :
    (setConcurrency (QInf.fin qThreeHalves) (initQueue (QInf.fin 1) true)).isOk = true
    ∧ qThreeHalves = 3 / 2
    ∧ concWhole (QInf.fin qThreeHalves) = false := by
  refine ⟨by decide, ?_, by decide⟩
  rw [qThreeHalves, Rat.mk'_eq_divInt, Rat.divInt_eq_div]
  norm_num

/-- C7 (amended): the assignment signals a configuration error iff the new
value is below 1 — any number `>= 1`, fractional values included, and the
unbounded sentinel are accepted; a valid assignment stores the new limit
and immediately runs the dequeue loop. -/
theorem claim_C7 (c : QInf) (s : QSys) :
    ((setConcurrency c s).isOk = true ↔ QInf.finLe 1 c = true)
    ∧ (QInf.finLe 1 c = true →
        setConcurrency c s = Except.ok (processQueue { s with concurrency := c })
        ∧ (processQueue { s with concurrency := c }).concurrency = c) := by
  constructor
  · unfold setConcurrency
    by_cases hcc : QInf.finLe 1 c = false
    · rw [if_pos hcc]
      constructor
      · intro h
        exact absurd h (by decide)
      · intro h
        rw [h] at hcc
        exact absurd hcc (by simp)
    · rw [if_neg hcc]
      constructor
      · intro _
        cases hb : QInf.finLe 1 c with
        | false => exact absurd hb hcc
        | true => rfl
      · intro _
        rfl
  · intro hc1
    constructor
    · unfold setConcurrency
      rw [if_neg (by simp [hc1])]
    · show (processQueueAux _ { s with concurrency := c }).concurrency = c
      rw [processQueueAux_concurrency]

theorem claim_C7_witness :
    (((setConcurrency (QInf.fin 4) (initQueue (QInf.fin 1) true)).isOk = true
      ↔ QInf.finLe 1 (QInf.fin 4) = true)
    ∧ (QInf.finLe 1 (QInf.fin 4) = true →
        setConcurrency (QInf.fin 4) (initQueue (QInf.fin 1) true)
          = Except.ok (processQueue { initQueue (QInf.fin 1) true with concurrency := QInf.fin 4 })
        ∧ (processQueue { initQueue (QInf.fin 1) true with
            concurrency := QInf.fin 4 }).concurrency = QInf.fin 4)) :=
  claim_C7 (QInf.fin 4) (initQueue (QInf.fin 1) true)

/-- C9: pausing a queue and then starting it dequeues exactly as the same
state would if the dequeue loop ran without ever pausing (same started
order, same final state); while paused, `#tryToStartAnother` never
dequeues; `start()` on a non-paused queue is a no-op. -/
theorem claim_C9 (s : QSys) (h : s.isPaused = false) :
    applyOp (applyOp s QOp.pause) QOp.start = processQueue s
    ∧ (∀ t : QSys, t.isPaused = true → tryToStartAnother t = (false, t))
    ∧ (∀ t : QSys, t.isPaused = false → applyOp t QOp.start = t) := by
  refine ⟨?_, ?_, ?_⟩
  · cases s with
    | mk q p cc ip ns st =>
      have h2 : ip = false := h
      subst h2
      rfl
  · intro t ht
    unfold tryToStartAnother
    split
    · rfl
    · rw [if_neg (by simp [ht])]
  · intro t ht
    show (if t.isPaused then processQueue { t with isPaused := false } else t) = t
    rw [if_neg (by simp [ht])]

theorem claim_C9_witness :
    (applyOp (applyOp (QSys.mk [Entry.mk 5 0, Entry.mk 3 1] 0 (QInf.fin 1) false 2 [])
        QOp.pause) QOp.start
      = processQueue (QSys.mk [Entry.mk 5 0, Entry.mk 3 1] 0 (QInf.fin 1) false 2 [])
    ∧ (∀ t : QSys, t.isPaused = true → tryToStartAnother t = (false, t))
    ∧ (∀ t : QSys, t.isPaused = false → applyOp t QOp.start = t)) :=
  claim_C9 (QSys.mk [Entry.mk 5 0, Entry.mk 3 1] 0 (QInf.fin 1) false 2 []) rfl

theorem promiseAllSettled_getD {ε α : Type} :
    ∀ (xs : List (Except ε α)) (i : ℕ) (d : Except ε α) (dr : SettledResult ε α),
      i < xs.length →
      (promiseAllSettled xs).getD i dr = settleOutcome (xs.getD i d)
  | [], i, _, _, hi => by simp at hi
  | x :: t, 0, d, dr, _ => rfl
  | x :: t, i + 1, d, dr, hi =>
    promiseAllSettled_getD t i d dr (by simpa using hi)

/-- Host `Promise.all` rejects with the first rejection in the list when all
earlier outcomes are fulfilled. -/
theorem promiseAll_firstError {ε α : Type} :
    ∀ (pre post : List (Except ε α)) (e : ε),
      (∀ x ∈ pre, ∃ a, x = Except.ok a) →
      promiseAll (pre ++ Except.error e :: post) = Except.error e
  | [], _, _, _ => rfl
  | x :: pre, post, e, hpre => by
    obtain ⟨a, ha⟩ := hpre x (List.mem_cons_self x pre)
    have hrec := promiseAll_firstError pre post e
      (fun y hy => hpre y (List.mem_cons_of_mem x hy))
    rw [List.cons_append, ha]
    show (match promiseAll (pre ++ Except.error e :: post) with
      | .error e1 => Except.error e1
      | .ok as => Except.ok (a :: as)) = Except.error e
    rw [hrec]

/-- C8: with `failFast` left at its default `false`, `addAll` aggregates by
settle-all: the aggregate never rejects and carries one settlement record
per task matching that task's outcome (in particular, one throwing and one
succeeding task are both reported); with `failFast := true` the first
rejection rejects the aggregate with that error. -/
theorem claim_C8 (xs : List (Except String ℕ)) :
    ({} : AddAllOptions).failFast = false
    ∧ addAll xs {} = Except.ok (AddAllResult.settled (promiseAllSettled xs))
    ∧ (promiseAllSettled xs).length = xs.length
    ∧ (∀ (i : ℕ) (d : Except String ℕ) (dr : SettledResult String ℕ), i < xs.length →
        (promiseAllSettled xs).getD i dr = settleOutcome (xs.getD i d))
    ∧ addAll [Except.error "boom", Except.ok 1] {}
        = Except.ok (AddAllResult.settled
            [SettledResult.rejected "boom", SettledResult.fulfilled 1])
    ∧ (∀ (pre post : List (Except String ℕ)) (e : String),
        xs = pre ++ Except.error e :: post →
        (∀ x ∈ pre, ∃ a, x = Except.ok a) →
        addAll xs { failFast := true } = Except.error e) := by
  refine ⟨rfl, rfl, by simp [promiseAllSettled], promiseAllSettled_getD xs, rfl, ?_⟩
  intro pre post e hxs hpre
  rw [hxs]
  show (promiseAll (pre ++ Except.error e :: post)).map AddAllResult.values = Except.error e
  rw [promiseAll_firstError pre post e hpre]
  rfl

theorem claim_C8_witness :
    addAll [Except.error "boom", Except.ok 1] ({ failFast := true } : AddAllOptions)
      = Except.error "boom" :=
  (claim_C8 [Except.error "boom", Except.ok 1]).2.2.2.2.2
    [] [Except.ok 1] "boom" rfl (fun x hx => absurd hx (List.not_mem_nil x))

/-! ## The retry controller (`RetryController`, src/src/retry-promise/index.ts) -/

/-- A JS `Error` instance: its `name`, `message`, and an identity `uid`
distinguishing distinct instances with equal messages. -/
structure RError where
  name : String := "Error"
  message : String
  uid : ℕ
deriving DecidableEq, Repr

/-- The `RetryError` synthesized on deadline exceedance (lines 338-344):
`name = 'RetryError'`, default message `'Retry timeout'`. -/
def retryTimeoutError : RError := { name := "RetryError", message := "Retry timeout", uid := 0 }

/-- Options `RetryOptions` (lines 349-424) with the defaults of `getDefaultOptions`
(lines 426-434).  The `onError` callback is modelled as an event log, not a
stored function; `getTimeout` is the optional custom interval function. -/
structure RetryOptions where
  maxRetryCount : QInf := .fin 10
  minTimeInterval : ℚ := 1000
  maxTimeInterval : QInf := .inf
  maxRetryTime : QInf := .inf
  incrementIntervalFactor : ℚ := 2
  incrementIntervalRandomize : Bool := false
  getTimeout : Option (ℕ → Option ℚ) := none

/-- The host's table of scheduled timer callbacks: the ids of the
still-armed timers, and a fresh-id counter. -/
structure TimerTable where
  timers : List ℕ
  nextId : ℕ
deriving DecidableEq, Repr

/-- Host `setTimeout`: arms a fresh timer, returning its id. -/
def setTimeout (tt : TimerTable) : ℕ × TimerTable :=
  (tt.nextId, { timers := tt.timers ++ [tt.nextId], nextId := tt.nextId + 1 })

/-- Host `clearTimeout(id)`: disarms the timer with that id, if armed. -/
def clearTimeout (tt : TimerTable) (id : ℕ) : TimerTable :=
  { tt with timers := tt.timers.filter (fun i => i ≠ id) }

/-- The controller's private state (lines 436-447). -/
structure RetryState where
  opts : RetryOptions
  timeoutId : Option ℕ := none
  errors : List RError := []
  startTime : ℚ := 0
  retryCount : ℕ := 0
  cachedMainError : Option RError := none
  isMainErrorStale : Bool := true

/-- Method `RetryController.#getNextTimeout` (lines 448-463).  `r` is the value of
`Math.random()` drawn when randomization is enabled. -/
def getNextTimeout (o : RetryOptions) (r : ℚ) (n : ℕ) : Option ℚ :=
  if QInf.leFin o.maxRetryCount (n : ℚ) then none
  else
    match o.getTimeout with
    | some f => f n
    | none =>
      let random := if o.incrementIntervalRandomize then r + 1 else 1
      some (QInf.jsMin (jsRound (random * max o.minTimeInterval 1) * o.incrementIntervalFactor ^ n)
        o.maxTimeInterval)

/-- The `RetryController` constructor (lines 494-517): merges defaults,
clamps `maxTimeInterval` up to `minTimeInterval` when `min > max`, then
validates, throwing a `TypeError` on the first violated condition. -/
def mkRetryController (o : RetryOptions) : Except String RetryOptions :=
  let o := if QInf.ltFin o.maxTimeInterval o.minTimeInterval then
      { o with maxTimeInterval := .fin o.minTimeInterval }
    else o
  if o.minTimeInterval < 0 then .error "minTimeInterval must be greater than or equal to 0"
  else if QInf.ltZero o.maxTimeInterval then
    .error "maxTimeInterval must be greater than or equal to 0"
  else if QInf.ltZero o.maxRetryTime then
    .error "maxRetryTime must be greater than or equal to 0"
  else if o.incrementIntervalFactor < 1 then
    .error "incrementIntervalFactor must be greater than or equal to 1"
  else if QInf.leZero o.maxRetryCount then .error "maxRetryCount must be greater than 0"
  else .ok o

/-- Method `RetryController.#onError` (lines 519-523): invoke the `onError`
callback (logged), push the error, mark the cached main error stale. -/
def onErrorStep (s : RetryState) (e : RError) (n : ℕ) (t : ℚ) :
    RetryState × List (RError × ℕ × ℚ) :=
  ({ s with errors := s.errors ++ [e], isMainErrorStale := true }, [(e, n, t)])

/-- Everything a `retry()` call produces: its boolean result, the new
controller state, the new timer table, and the `onError` callback
invocations it made, in order. -/
structure RetryOutcome where
  result : Bool
  state : RetryState
  table : TimerTable
  calls : List (RError × ℕ × ℚ)

/-- The step `if (this.#timeoutId) clearTimeout(this.#timeoutId)` as it opens both
`retry` (line 532) and `stop` (line 592). -/
def clearCurrent (s : RetryState) (tt : TimerTable) : TimerTable :=
  match s.timeoutId with
  | some id => clearTimeout tt id
  | none => tt

/-- Method `RetryController.retry` (lines 531-560).  `now` is `Date.now()`, `r`
the `Math.random()` draw used if an interval is computed. -/
def RetryState.retry (s : RetryState) (tt : TimerTable) (error : Option RError)
    (now r : ℚ) : RetryOutcome :=
  let tt := clearCurrent s tt
  match error with
  | none => { result := false, state := s, table := tt, calls := [] }
  | some e =>
    if QInf.leFin s.opts.maxRetryTime (now - s.startTime) then
      let (s1, log1) := onErrorStep s e s.retryCount 0
      let s2 := { s1 with errors := [] }
      let (s3, log2) := onErrorStep s2 retryTimeoutError s2.retryCount 0
      { result := false, state := s3, table := tt, calls := log1 ++ log2 }
    else
      let timeout := getNextTimeout s.opts r s.retryCount
      let (s1, log1) := onErrorStep s e s.retryCount (timeout.getD 0)
      match timeout with
      | none => { result := false, state := s1, table := tt, calls := log1 }
      | some _t =>
        let (id, tt1) := setTimeout tt
        { result := true, state := { s1 with timeoutId := some id }, table := tt1,
          calls := log1 }

/-- Method `RetryController.try` (lines 568-574): store the operation, record
`startTime = Date.now()`, invoke it immediately (the invocation itself is
the caller's code and has no effect on the controller state). -/
def RetryState.tryOp (s : RetryState) (now : ℚ) : RetryState :=
  { s with startTime := now }

/-- Method `RetryController.stop` (lines 591-598): clear any armed timer, clear
the history and the cached main error.  `#timeoutId` is not nulled. -/
def RetryState.stop (s : RetryState) (tt : TimerTable) : RetryState × TimerTable :=
  let tt := clearCurrent s tt
  ({ s with errors := [], isMainErrorStale := true, cachedMainError := none }, tt)

/-- Method `RetryController.reset` (lines 581-584): `stop()` then zero the count. -/
def RetryState.reset (s : RetryState) (tt : TimerTable) : RetryState × TimerTable :=
  let (s1, tt1) := s.stop tt
  ({ s1 with retryCount := 0 }, tt1)

/-- A scheduled retry callback firing (lines 554-557): if its timer is
still armed it is consumed, `#retryCount` increments and the stored
operation is re-invoked (the invocation is external to this state). -/
def fireTimer (s : RetryState) (tt : TimerTable) (id : ℕ) : RetryState × TimerTable :=
  if id ∈ tt.timers then
    ({ s with retryCount := s.retryCount + 1 },
      { tt with timers := tt.timers.filter (fun i => i ≠ id) })
  else (s, tt)

/-- The scan of `mainError` (lines 644-654): running per-message counts,
current leader and leader count; an error whose message count reaches the
leader count (or above) becomes the new leader. -/
def mainErrorLoop : List RError → (String → ℕ) → Option RError → ℕ → Option RError × ℕ
  | [], _, leader, lc => (leader, lc)
  | e :: rest, counts, leader, lc =>
    let c := counts e.message + 1
    let counts1 := fun m => if m = e.message then c else counts m
    if lc ≤ c then mainErrorLoop rest counts1 (some e) c
    else mainErrorLoop rest counts1 leader lc

/-- The result of the `mainError` scan from the initial state. -/
def mainErrorCompute (errors : List RError) : Option RError :=
  (mainErrorLoop errors (fun _ => 0) none 0).1

/-- The `mainError` getter (lines 623-659), with its cache handling. -/
def RetryState.mainError (s : RetryState) : Option RError × RetryState :=
  if s.isMainErrorStale = false ∧ s.errors = [] then (none, s)
  else if s.isMainErrorStale = false ∧ s.cachedMainError ≠ none then (s.cachedMainError, s)
  else if s.errors = [] then
    (none, { s with cachedMainError := none, isMainErrorStale := false })
  else
    let m := mainErrorCompute s.errors
    (m, { s with cachedMainError := m, isMainErrorStale := false })

/-- Number of errors in `l` whose message is `m`. -/
def countMsg (l : List RError) (m : String) : ℕ :=
  (l.filter (fun e => e.message = m)).length

/-- The controller operations whose interleavings the timer claims range
over: `try`, `retry`, `stop`, `reset`, and a scheduled callback firing. -/
inductive RAction where
  | tryA (now : ℚ)
  | retryA (error : Option RError) (now r : ℚ)
  | stopA
  | resetA
  | fireA (id : ℕ)

/-- One controller action applied to the state and the host timer table. -/
def applyRAction (p : RetryState × TimerTable) (a : RAction) : RetryState × TimerTable :=
  match a with
  | .tryA now => (p.1.tryOp now, p.2)
  | .retryA e now r =>
    let o := p.1.retry p.2 e now r
    (o.state, o.table)
  | .stopA => p.1.stop p.2
  | .resetA => p.1.reset p.2
  | .fireA id => fireTimer p.1 p.2 id

/-- A freshly constructed controller and an empty timer table. -/
def initRetry (o : RetryOptions) : RetryState × TimerTable :=
  ({ opts := o }, { timers := [], nextId := 0 })

/-- Running a sequence of controller actions. -/
def runRetry (acts : List RAction) (p : RetryState × TimerTable) : RetryState × TimerTable :=
  acts.foldl applyRAction p

/-! ### Claims about the retry controller -/

/-- C3: without a custom interval function, for a 0-indexed attempt count
below the retry cap the computed interval is
`min(round(R * max(minTimeInterval, 1)) * incrementIntervalFactor^n,
maxTimeInterval)`, where `R = 1` with randomization off and `R = r + 1`
for the drawn `r = Math.random()`, lying in `[1, 2)` for `r ∈ [0, 1)`;
at or past the cap no interval is returned. -/
theorem claim_C3 (o : RetryOptions) (r : ℚ) (n : ℕ) (hgt : o.getTimeout = none) :
    (QInf.leFin o.maxRetryCount (n : ℚ) = false →
      getNextTimeout o r n = some (QInf.jsMin
        (jsRound ((if o.incrementIntervalRandomize then r + 1 else 1)
            * max o.minTimeInterval 1)
          * o.incrementIntervalFactor ^ n)
        o.maxTimeInterval))
    ∧ (QInf.leFin o.maxRetryCount (n : ℚ) = true → getNextTimeout o r n = none)
    ∧ (0 ≤ r → r < 1 → 1 ≤ r + 1 ∧ r + 1 < 2) := by
  refine ⟨?_, ?_, fun h0 h1 => ⟨by linarith, by linarith⟩⟩
  · intro hlt
    unfold getNextTimeout
    rw [if_neg (by simp [hlt]), hgt]
  · intro hge
    unfold getNextTimeout
    rw [if_pos (by simp [hge])]

theorem claim_C3_witness :
    getNextTimeout {} 0 3 = some (QInf.jsMin
      (jsRound ((if ({} : RetryOptions).incrementIntervalRandomize then (0 : ℚ) + 1 else 1)
          * max ({} : RetryOptions).minTimeInterval 1)
        * ({} : RetryOptions).incrementIntervalFactor ^ 3)
      ({} : RetryOptions).maxTimeInterval) :=
  (claim_C3 {} 0 3 rfl).1 (by decide)

theorem countMsg_cons (e : RError) (rest : List RError) (m : String) :
    countMsg (e :: rest) m = (if e.message = m then 1 else 0) + countMsg rest m := by
  by_cases h : e.message = m
  · simp [countMsg, List.filter_cons, h, Nat.add_comm]
  · simp [countMsg, List.filter_cons, h]

/-- The invariant of the `mainError` scan: the leader count is the running
maximum of the per-message counts, the leader's message attains it, and the
leader (once any error was scanned) is an error of the scanned prefix. -/
theorem mainErrorLoop_spec :
    ∀ (rest : List RError) (counts : String → ℕ) (leader : Option RError) (lc : ℕ),
      (∀ m, counts m ≤ lc) →
      (∀ e1, leader = some e1 → counts e1.message = lc) →
      (leader = none → lc = 0) →
      (∀ m, counts m + countMsg rest m ≤ (mainErrorLoop rest counts leader lc).2)
      ∧ (∀ e1, (mainErrorLoop rest counts leader lc).1 = some e1 →
          counts e1.message + countMsg rest e1.message
            = (mainErrorLoop rest counts leader lc).2)
      ∧ ((mainErrorLoop rest counts leader lc).1 = none → leader = none ∧ rest = [])
      ∧ (∀ e1, (mainErrorLoop rest counts leader lc).1 = some e1 →
          leader = some e1 ∨ e1 ∈ rest)
  | [], counts, leader, lc, h1, h2, h3 => by
    refine ⟨?_, ?_, ?_, ?_⟩
    · intro m
      simpa [countMsg] using h1 m
    · intro e1 he
      simpa [countMsg] using h2 e1 he
    · intro hn
      exact ⟨hn, rfl⟩
    · intro e1 he
      exact Or.inl he
  | e :: rest, counts, leader, lc, h1, h2, h3 => by
    have haux : ∀ m : String,
        (if m = e.message then counts e.message + 1 else counts m) + countMsg rest m
          = counts m + countMsg (e :: rest) m := by
      intro m
      rw [countMsg_cons]
      by_cases hm : m = e.message
      · rw [if_pos hm, if_pos hm.symm, hm]
        omega
      · rw [if_neg hm, if_neg (fun hh => hm hh.symm)]
        omega
    by_cases hbr : lc ≤ counts e.message + 1
    · have hstep : mainErrorLoop (e :: rest) counts leader lc
          = mainErrorLoop rest (fun m => if m = e.message then counts e.message + 1 else counts m)
            (some e) (counts e.message + 1) := by
        simp only [mainErrorLoop]
        rw [if_pos hbr]
      have hrec := mainErrorLoop_spec rest
        (fun m => if m = e.message then counts e.message + 1 else counts m)
        (some e) (counts e.message + 1)
        (fun m => by
          show (if m = e.message then counts e.message + 1 else counts m)
            ≤ counts e.message + 1
          by_cases hm : m = e.message
          · rw [if_pos hm]
          · rw [if_neg hm]
            exact le_trans (h1 m) hbr)
        (fun e1 he1 => by
          injection he1 with hh
          subst hh
          simp)
        (fun hn => Option.noConfusion hn)
      refine ⟨?_, ?_, ?_, ?_⟩
      · intro m
        rw [hstep, ← haux m]
        exact hrec.1 m
      · intro e1 he1
        rw [hstep] at he1 ⊢
        rw [← haux e1.message]
        exact hrec.2.1 e1 he1
      · intro hn
        rw [hstep] at hn
        exact absurd (hrec.2.2.1 hn).1 (by simp)
      · intro e1 he1
        rw [hstep] at he1
        rcases hrec.2.2.2 e1 he1 with hse | hmem
        · injection hse with hh
          exact Or.inr (List.mem_cons.mpr (Or.inl hh.symm))
        · exact Or.inr (List.mem_cons_of_mem e hmem)
    · have hstep : mainErrorLoop (e :: rest) counts leader lc
          = mainErrorLoop rest (fun m => if m = e.message then counts e.message + 1 else counts m)
            leader lc := by
        simp only [mainErrorLoop]
        rw [if_neg hbr]
      have hrec := mainErrorLoop_spec rest
        (fun m => if m = e.message then counts e.message + 1 else counts m)
        leader lc
        (fun m => by
          show (if m = e.message then counts e.message + 1 else counts m) ≤ lc
          by_cases hm : m = e.message
          · rw [if_pos hm]
            omega
          · rw [if_neg hm]
            exact h1 m)
        (fun e1 he1 => by
          have hle := h2 e1 he1
          show (if e1.message = e.message then counts e.message + 1 else counts e1.message) = lc
          by_cases hm : e1.message = e.message
          · rw [if_pos hm]
            rw [hm] at hle
            omega
          · rw [if_neg hm]
            exact hle)
        h3
      refine ⟨?_, ?_, ?_, ?_⟩
      · intro m
        rw [hstep, ← haux m]
        exact hrec.1 m
      · intro e1 he1
        rw [hstep] at he1 ⊢
        rw [← haux e1.message]
        exact hrec.2.1 e1 he1
      · intro hn
        rw [hstep] at hn
        have hlc0 := h3 (hrec.2.2.1 hn).1
        exact absurd hbr (by omega)
      · intro e1 he1
        rw [hstep] at he1
        rcases hrec.2.2.2 e1 he1 with hse | hmem
        · exact Or.inl hse
        · exact Or.inr (List.mem_cons_of_mem e hmem)

/-- C4: when the cache is stale the `mainError` getter recomputes the scan;
it returns null on an empty history, and on a non-empty history it returns
a recorded error whose message count is maximal, ties resolved by the
chronological any-count-`>=`-max-takes-over scan: `[A,B,B,A,A]` yields the
last `A` instance and `[A,B]` yields the `B` instance. -/
theorem claim_C4 (s : RetryState) (hstale : s.isMainErrorStale = true) :
    (s.mainError).1 = mainErrorCompute s.errors
    ∧ (s.errors = [] → (s.mainError).1 = none)
    ∧ (s.errors ≠ [] → ∃ e, (s.mainError).1 = some e ∧ e ∈ s.errors
        ∧ ∀ m, countMsg s.errors m ≤ countMsg s.errors e.message)
    ∧ mainErrorCompute [RError.mk "Error" "A" 1, RError.mk "Error" "B" 2,
        RError.mk "Error" "B" 3, RError.mk "Error" "A" 4, RError.mk "Error" "A" 5]
      = some (RError.mk "Error" "A" 5)
    ∧ mainErrorCompute [RError.mk "Error" "A" 1, RError.mk "Error" "B" 2]
      = some (RError.mk "Error" "B" 2) := by
  have hmain : (s.mainError).1 = mainErrorCompute s.errors := by
    unfold RetryState.mainError
    rw [if_neg (by simp [hstale]), if_neg (by simp [hstale])]
    by_cases he : s.errors = []
    · rw [if_pos he, he]
      rfl
    · rw [if_neg he]
  refine ⟨hmain, ?_, ?_, by decide, by decide⟩
  · intro he
    rw [hmain, he]
    rfl
  · intro hne
    have hspec := mainErrorLoop_spec s.errors (fun _ => 0) none 0
      (fun m => le_refl 0) (fun e1 he1 => Option.noConfusion he1) (fun _ => rfl)
    cases hres : (mainErrorLoop s.errors (fun _ => 0) none 0).1 with
    | none => exact absurd (hspec.2.2.1 hres).2 hne
    | some e =>
      refine ⟨e, ?_, ?_, ?_⟩
      · rw [hmain]
        exact hres
      · rcases hspec.2.2.2 e hres with hno | hmem
        · exact absurd hno (by simp)
        · exact hmem
      · intro m
        have hb1 := hspec.1 m
        have hb2 := hspec.2.1 e hres
        simp only [Nat.zero_add] at hb1 hb2
        omega

theorem claim_C4_witness :
    (RetryState.mainError
      { opts := {}, errors := [RError.mk "Error" "A" 1, RError.mk "Error" "B" 2] }).1
      = some (RError.mk "Error" "B" 2) := by
  rw [(claim_C4 { opts := {}, errors := [RError.mk "Error" "A" 1, RError.mk "Error" "B" 2] } rfl).1]
  decide

/-- C5: a `retry(error)` call past the deadline records the error, then
clears the history and records a synthesized `RetryError`, invoking the
`onError` callback for both, and returns false; right after it,
`mainError` is the deadline error. -/
theorem claim_C5 (s : RetryState) (tt : TimerTable) (e : RError) (now r : ℚ)
    (hdl : QInf.leFin s.opts.maxRetryTime (now - s.startTime) = true) :
    s.retry tt (some e) now r
      = { result := false,
          state := { s with errors := [retryTimeoutError], isMainErrorStale := true },
          table := clearCurrent s tt,
          calls := [(e, s.retryCount, 0), (retryTimeoutError, s.retryCount, 0)] }
    ∧ (s.retry tt (some e) now r).result = false
    ∧ (s.retry tt (some e) now r).state.errors = [retryTimeoutError]
    ∧ ((s.retry tt (some e) now r).state.mainError).1 = some retryTimeoutError := by
  have hval : s.retry tt (some e) now r
      = { result := false,
          state := { s with errors := [retryTimeoutError], isMainErrorStale := true },
          table := clearCurrent s tt,
          calls := [(e, s.retryCount, 0), (retryTimeoutError, s.retryCount, 0)] } := by
    simp only [RetryState.retry]
    rw [if_pos hdl]
    rfl
  refine ⟨hval, by rw [hval], by rw [hval], ?_⟩
  rw [hval]
  show (RetryState.mainError
    { s with errors := [retryTimeoutError], isMainErrorStale := true }).1
    = some retryTimeoutError
  unfold RetryState.mainError
  rw [if_neg (by simp), if_neg (by simp), if_neg (by simp)]
  show mainErrorCompute [retryTimeoutError] = some retryTimeoutError
  decide

theorem claim_C5_witness :
    RetryState.retry { opts := { maxRetryTime := QInf.fin 3 } }
        { timers := [], nextId := 0 } (some (RError.mk "Error" "boom" 7)) 5 0
      = { result := false,
          state := { ({ opts := { maxRetryTime := QInf.fin 3 } } : RetryState) with
            errors := [retryTimeoutError], isMainErrorStale := true },
          table := clearCurrent { opts := { maxRetryTime := QInf.fin 3 } }
            { timers := [], nextId := 0 },
          calls := [(RError.mk "Error" "boom" 7, 0, 0), (retryTimeoutError, 0, 0)] } :=
  (claim_C5 { opts := { maxRetryTime := QInf.fin 3 } } { timers := [], nextId := 0 }
    (RError.mk "Error" "boom" 7) 5 0 (by with_unfolding_all decide)).1

/-- C6 counterexample: `minTimeInterval = 5, maxTimeInterval = -1` has a
negative `maxTimeInterval`, yet the constructor signals no error, because
the `min > max` clamp runs before validation — the claimed
"error if and only if" fails in the "if" direction. -/
theorem claim_C6_counterexample :
    (mkRetryController { minTimeInterval := 5, maxTimeInterval := QInf.fin (-1) }).isOk = true
    ∧ QInf.ltZero (QInf.fin (-1)) = true :=
  ⟨by decide, by decide⟩

/-- C6 (amended): the constructor signals a configuration error iff
`minTimeInterval < 0`, or `maxRetryTime < 0`, or
`incrementIntervalFactor < 1`, or `maxRetryCount <= 0` — a negative
`maxTimeInterval` by itself never errors, because whenever
`minTimeInterval > maxTimeInterval` the constructor first silently raises
`maxTimeInterval` to `minTimeInterval` (visible on the returned options
record). -/
theorem claim_C6 (o : RetryOptions) :
    ((mkRetryController o).isOk = false ↔
      (o.minTimeInterval < 0 ∨ QInf.ltZero o.maxRetryTime = true
        ∨ o.incrementIntervalFactor < 1 ∨ QInf.leZero o.maxRetryCount = true))
    ∧ (∀ o1, mkRetryController o = Except.ok o1 →
        (QInf.ltFin o.maxTimeInterval o.minTimeInterval = true →
          o1.maxTimeInterval = QInf.fin o.minTimeInterval)
        ∧ o1.minTimeInterval = o.minTimeInterval) := by
  have hmax : ∀ hcl : QInf.ltFin o.maxTimeInterval o.minTimeInterval = false,
      o.minTimeInterval < 0 ∨ QInf.ltZero o.maxTimeInterval = false := by
    intro hcl
    by_cases hmin : o.minTimeInterval < 0
    · exact Or.inl hmin
    · refine Or.inr ?_
      cases hmt : o.maxTimeInterval with
      | fin q =>
        rw [hmt] at hcl
        simp only [QInf.ltFin, decide_eq_false_iff_not, not_lt] at hcl
        simp only [QInf.ltZero, QInf.ltFin, decide_eq_false_iff_not, not_lt]
        push_neg at hmin
        linarith
      | inf => rfl
  constructor
  · unfold mkRetryController
    by_cases hcl : QInf.ltFin o.maxTimeInterval o.minTimeInterval = true
    · rw [if_pos hcl]
      by_cases h1 : o.minTimeInterval < 0
      · rw [if_pos h1]
        exact ⟨fun _ => Or.inl h1, fun _ => rfl⟩
      · rw [if_neg h1]
        rw [if_neg (by
          show ¬ (QInf.ltZero (QInf.fin o.minTimeInterval) = true)
          simp only [QInf.ltZero, QInf.ltFin, decide_eq_true_eq]
          exact h1)]
        by_cases h3 : QInf.ltZero o.maxRetryTime = true
        · rw [if_pos h3]
          exact ⟨fun _ => Or.inr (Or.inl h3), fun _ => rfl⟩
        · rw [if_neg h3]
          by_cases h4 : o.incrementIntervalFactor < 1
          · rw [if_pos h4]
            exact ⟨fun _ => Or.inr (Or.inr (Or.inl h4)), fun _ => rfl⟩
          · rw [if_neg h4]
            by_cases h5 : QInf.leZero o.maxRetryCount = true
            · rw [if_pos h5]
              exact ⟨fun _ => Or.inr (Or.inr (Or.inr h5)), fun _ => rfl⟩
            · rw [if_neg h5]
              refine ⟨fun hok => Bool.noConfusion (show (true : Bool) = false from hok),
                fun hrhs => ?_⟩
              rcases hrhs with h | h | h | h
              · exact absurd h h1
              · exact absurd h h3
              · exact absurd h h4
              · exact absurd h h5
    · rw [if_neg hcl]
      by_cases h1 : o.minTimeInterval < 0
      · rw [if_pos h1]
        exact ⟨fun _ => Or.inl h1, fun _ => rfl⟩
      · rw [if_neg h1]
        have hz : QInf.ltZero o.maxTimeInterval = false := by
          rcases hmax (by
            cases hb : QInf.ltFin o.maxTimeInterval o.minTimeInterval
            · rfl
            · exact absurd hb hcl) with hq | hq
          · exact absurd hq h1
          · exact hq
        rw [if_neg (by simp [hz])]
        by_cases h3 : QInf.ltZero o.maxRetryTime = true
        · rw [if_pos h3]
          exact ⟨fun _ => Or.inr (Or.inl h3), fun _ => rfl⟩
        · rw [if_neg h3]
          by_cases h4 : o.incrementIntervalFactor < 1
          · rw [if_pos h4]
            exact ⟨fun _ => Or.inr (Or.inr (Or.inl h4)), fun _ => rfl⟩
          · rw [if_neg h4]
            by_cases h5 : QInf.leZero o.maxRetryCount = true
            · rw [if_pos h5]
              exact ⟨fun _ => Or.inr (Or.inr (Or.inr h5)), fun _ => rfl⟩
            · rw [if_neg h5]
              refine ⟨fun hok => Bool.noConfusion (show (true : Bool) = false from hok),
                fun hrhs => ?_⟩
              rcases hrhs with h | h | h | h
              · exact absurd h h1
              · exact absurd h h3
              · exact absurd h h4
              · exact absurd h h5
  · intro o1 hok
    simp only [mkRetryController] at hok
    by_cases hcl : QInf.ltFin o.maxTimeInterval o.minTimeInterval = true
    · rw [if_pos hcl] at hok
      split at hok
      · cases hok
      · split at hok
        · cases hok
        · split at hok
          · cases hok
          · split at hok
            · cases hok
            · split at hok
              · cases hok
              · cases hok
                exact ⟨fun _ => rfl, rfl⟩
    · rw [if_neg hcl] at hok
      split at hok
      · cases hok
      · split at hok
        · cases hok
        · split at hok
          · cases hok
          · split at hok
            · cases hok
            · split at hok
              · cases hok
              · cases hok
                exact ⟨fun hcl1 => absurd hcl1 hcl, rfl⟩

theorem claim_C6_witness :
    ((mkRetryController { minTimeInterval := 5, maxTimeInterval := QInf.fin (-1) }).isOk = false ↔
      (({ minTimeInterval := 5, maxTimeInterval := QInf.fin (-1) } : RetryOptions).minTimeInterval < 0
        ∨ QInf.ltZero ({ minTimeInterval := 5, maxTimeInterval := QInf.fin (-1) } : RetryOptions).maxRetryTime = true
        ∨ ({ minTimeInterval := 5, maxTimeInterval := QInf.fin (-1) } : RetryOptions).incrementIntervalFactor < 1
        ∨ QInf.leZero ({ minTimeInterval := 5, maxTimeInterval := QInf.fin (-1) } : RetryOptions).maxRetryCount = true))
    ∧ (∀ o1, mkRetryController { minTimeInterval := 5, maxTimeInterval := QInf.fin (-1) } = Except.ok o1 →
        (QInf.ltFin ({ minTimeInterval := 5, maxTimeInterval := QInf.fin (-1) } : RetryOptions).maxTimeInterval
            ({ minTimeInterval := 5, maxTimeInterval := QInf.fin (-1) } : RetryOptions).minTimeInterval = true →
          o1.maxTimeInterval = QInf.fin ({ minTimeInterval := 5, maxTimeInterval := QInf.fin (-1) } : RetryOptions).minTimeInterval)
        ∧ o1.minTimeInterval = ({ minTimeInterval := 5, maxTimeInterval := QInf.fin (-1) } : RetryOptions).minTimeInterval) :=
  claim_C6 { minTimeInterval := 5, maxTimeInterval := QInf.fin (-1) }

/-! ### The timer invariant (claim C10) -/

/-- The timer-table invariant of every reachable controller: at most one
armed retry callback exists, it is the one `#timeoutId` names, and every
armed id is below the host's fresh-id counter. -/
def TimerInv (s : RetryState) (tt : TimerTable) : Prop :=
  (tt.timers = [] ∨ ∃ id, tt.timers = [id] ∧ s.timeoutId = some id)
  ∧ ∀ id ∈ tt.timers, id < tt.nextId

theorem clearCurrent_timers {s : RetryState} {tt : TimerTable} (h : TimerInv s tt) :
    (clearCurrent s tt).timers = [] := by
  unfold clearCurrent
  rcases h.1 with h0 | ⟨id, hts, hid⟩
  · cases hsome : s.timeoutId with
    | none => exact h0
    | some id0 =>
      show tt.timers.filter (fun i => i ≠ id0) = []
      rw [h0]
      rfl
  · rw [hid]
    show tt.timers.filter (fun i => i ≠ id) = []
    rw [hts]
    simp

theorem clearCurrent_nextId (s : RetryState) (tt : TimerTable) :
    (clearCurrent s tt).nextId = tt.nextId := by
  unfold clearCurrent
  cases s.timeoutId <;> rfl

/-- Every `retry()` call clears the armed timer first, so afterwards the
table holds at most the one freshly armed callback (none at all when the
call returned false), and never a previously armed one. -/
theorem TimerInv_retry {s : RetryState} {tt : TimerTable} (h : TimerInv s tt)
    (e : Option RError) (now r : ℚ) :
    TimerInv (s.retry tt e now r).state (s.retry tt e now r).table
    ∧ ((s.retry tt e now r).result = false → (s.retry tt e now r).table.timers = [])
    ∧ (∀ id ∈ (s.retry tt e now r).table.timers, id ∉ tt.timers) := by
  have hclear := clearCurrent_timers h
  have hnext := clearCurrent_nextId s tt
  have hempty : ∀ (state1 : RetryState),
      (s.retry tt e now r).table = clearCurrent s tt →
      (s.retry tt e now r).state = state1 →
      TimerInv (s.retry tt e now r).state (s.retry tt e now r).table
      ∧ ((s.retry tt e now r).result = false → (s.retry tt e now r).table.timers = [])
      ∧ (∀ id ∈ (s.retry tt e now r).table.timers, id ∉ tt.timers) := by
    intro state1 htab _
    refine ⟨⟨Or.inl (by rw [htab]; exact hclear), ?_⟩, fun _ => by rw [htab]; exact hclear, ?_⟩
    · intro id hid
      rw [htab, hclear] at hid
      exact absurd hid (List.not_mem_nil id)
    · intro id hid
      rw [htab, hclear] at hid
      exact absurd hid (List.not_mem_nil id)
  cases e with
  | none => exact hempty s rfl rfl
  | some e0 =>
    by_cases hdl : QInf.leFin s.opts.maxRetryTime (now - s.startTime) = true
    · refine hempty _ ?_ rfl
      simp only [RetryState.retry]
      rw [if_pos hdl]
    · cases hgt : getNextTimeout s.opts r s.retryCount with
      | none =>
        refine hempty _ ?_ rfl
        simp only [RetryState.retry]
        rw [if_neg hdl, hgt]
      | some t =>
        have htab : (s.retry tt (some e0) now r).table
            = { timers := (clearCurrent s tt).timers ++ [(clearCurrent s tt).nextId],
                nextId := (clearCurrent s tt).nextId + 1 } := by
          simp only [RetryState.retry]
          rw [if_neg hdl, hgt]
          rfl
        have htid : (s.retry tt (some e0) now r).state.timeoutId
            = some (clearCurrent s tt).nextId := by
          simp only [RetryState.retry]
          rw [if_neg hdl, hgt]
          rfl
        have hres : (s.retry tt (some e0) now r).result = true := by
          simp only [RetryState.retry]
          rw [if_neg hdl, hgt]
        have htimers : (s.retry tt (some e0) now r).table.timers
            = [(clearCurrent s tt).nextId] := by
          rw [htab]
          show (clearCurrent s tt).timers ++ [(clearCurrent s tt).nextId] = _
          rw [hclear]
          rfl
        refine ⟨⟨Or.inr ⟨(clearCurrent s tt).nextId, htimers, htid⟩, ?_⟩, ?_, ?_⟩
        · intro id hid
          rw [htimers] at hid
          have hone : id = (clearCurrent s tt).nextId := by simpa using hid
          rw [htab]
          show id < (clearCurrent s tt).nextId + 1
          omega
        · intro hf
          rw [hres] at hf
          exact Bool.noConfusion hf
        · intro id hid
          rw [htimers] at hid
          have hone : id = (clearCurrent s tt).nextId := by simpa using hid
          rw [hone, hnext]
          intro hmem
          exact absurd (h.2 tt.nextId hmem) (lt_irrefl tt.nextId)

theorem TimerInv_stop {s : RetryState} {tt : TimerTable} (h : TimerInv s tt) :
    TimerInv (s.stop tt).1 (s.stop tt).2 ∧ (s.stop tt).2.timers = [] := by
  have hclear := clearCurrent_timers h
  have htab : (s.stop tt).2 = clearCurrent s tt := rfl
  refine ⟨⟨Or.inl (by rw [htab]; exact hclear), ?_⟩, by rw [htab]; exact hclear⟩
  intro id hid
  rw [htab, hclear] at hid
  exact absurd hid (List.not_mem_nil id)

theorem TimerInv_reset {s : RetryState} {tt : TimerTable} (h : TimerInv s tt) :
    TimerInv (s.reset tt).1 (s.reset tt).2 ∧ (s.reset tt).2.timers = [] := by
  have hs := TimerInv_stop h
  have htab : (s.reset tt).2 = (s.stop tt).2 := rfl
  have htid : (s.reset tt).1.timeoutId = (s.stop tt).1.timeoutId := rfl
  refine ⟨⟨?_, ?_⟩, by rw [htab]; exact hs.2⟩
  · rcases hs.1.1 with h0 | ⟨id, hts, hid⟩
    · exact Or.inl (by rw [htab]; exact h0)
    · exact Or.inr ⟨id, by rw [htab]; exact hts, by rw [htid]; exact hid⟩
  · intro id hid
    rw [htab] at hid
    exact hs.1.2 id hid

theorem TimerInv_fire {s : RetryState} {tt : TimerTable} (h : TimerInv s tt) (id : ℕ) :
    TimerInv (fireTimer s tt id).1 (fireTimer s tt id).2 := by
  unfold fireTimer
  split
  · next hmem =>
    rcases h.1 with h0 | ⟨id0, hts, hid0⟩
    · rw [h0] at hmem
      exact absurd hmem (List.not_mem_nil id)
    · have hone : id = id0 := by
        rw [hts] at hmem
        simpa using hmem
      constructor
      · refine Or.inl ?_
        show tt.timers.filter (fun i => i ≠ id) = []
        rw [hts, hone]
        simp
      · intro i hi
        show i < tt.nextId
        have : i ∈ tt.timers.filter (fun i => i ≠ id) := hi
        exact h.2 i (List.mem_of_mem_filter this)
  · exact h

theorem TimerInv_applyRAction {p : RetryState × TimerTable}
    (h : TimerInv p.1 p.2) (a : RAction) :
    TimerInv (applyRAction p a).1 (applyRAction p a).2 := by
  cases a with
  | tryA now => exact ⟨h.1, h.2⟩
  | retryA e now r => exact (TimerInv_retry h e now r).1
  | stopA => exact (TimerInv_stop h).1
  | resetA => exact (TimerInv_reset h).1
  | fireA id => exact TimerInv_fire h id

theorem TimerInv_runRetry :
    ∀ (acts : List RAction) (p : RetryState × TimerTable), TimerInv p.1 p.2 →
      TimerInv (runRetry acts p).1 (runRetry acts p).2
  | [], _, h => h
  | a :: rest, p, h => TimerInv_runRetry rest (applyRAction p a) (TimerInv_applyRAction h a)

/-- C10: along every action sequence from a fresh controller, at most one
scheduled retry callback is armed; any timer armed after a `retry()` call
is freshly created (the previous one was cancelled first); and after
`stop()`, `reset()`, or a `retry()` call returning false, no scheduled
callback remains. -/
theorem claim_C10 (o : RetryOptions) (acts : List RAction) :
    TimerInv (runRetry acts (initRetry o)).1 (runRetry acts (initRetry o)).2
    ∧ (runRetry acts (initRetry o)).2.timers.length ≤ 1
    ∧ (∀ (e : Option RError) (now r : ℚ),
        (((runRetry acts (initRetry o)).1.retry (runRetry acts (initRetry o)).2 e now r).result
            = false →
          ((runRetry acts (initRetry o)).1.retry
            (runRetry acts (initRetry o)).2 e now r).table.timers = [])
        ∧ (∀ id ∈ ((runRetry acts (initRetry o)).1.retry
              (runRetry acts (initRetry o)).2 e now r).table.timers,
            id ∉ (runRetry acts (initRetry o)).2.timers))
    ∧ ((runRetry acts (initRetry o)).1.stop (runRetry acts (initRetry o)).2).2.timers = []
    ∧ ((runRetry acts (initRetry o)).1.reset (runRetry acts (initRetry o)).2).2.timers = [] := by
  have hinv : TimerInv (runRetry acts (initRetry o)).1 (runRetry acts (initRetry o)).2 :=
    TimerInv_runRetry acts (initRetry o) ⟨Or.inl rfl, by intro id hid; exact absurd hid (List.not_mem_nil id)⟩
  refine ⟨hinv, ?_, ?_, (TimerInv_stop hinv).2, (TimerInv_reset hinv).2⟩
  · rcases hinv.1 with h0 | ⟨id, hts, _⟩
    · rw [h0]
      exact Nat.zero_le 1
    · rw [hts]
      exact le_refl 1
  · intro e now r
    exact ⟨(TimerInv_retry hinv e now r).2.1, (TimerInv_retry hinv e now r).2.2⟩

theorem claim_C10_witness :
    (TimerInv (runRetry [RAction.tryA 0, RAction.retryA (some (RError.mk "Error" "x" 1)) 1 0, RAction.stopA] (initRetry {})).1
        (runRetry [RAction.tryA 0, RAction.retryA (some (RError.mk "Error" "x" 1)) 1 0, RAction.stopA] (initRetry {})).2
    ∧ (runRetry [RAction.tryA 0, RAction.retryA (some (RError.mk "Error" "x" 1)) 1 0, RAction.stopA] (initRetry {})).2.timers.length ≤ 1
    ∧ (∀ (e : Option RError) (now r : ℚ),
        (((runRetry [RAction.tryA 0, RAction.retryA (some (RError.mk "Error" "x" 1)) 1 0, RAction.stopA] (initRetry {})).1.retry
              (runRetry [RAction.tryA 0, RAction.retryA (some (RError.mk "Error" "x" 1)) 1 0, RAction.stopA] (initRetry {})).2 e now r).result
            = false →
          ((runRetry [RAction.tryA 0, RAction.retryA (some (RError.mk "Error" "x" 1)) 1 0, RAction.stopA] (initRetry {})).1.retry
            (runRetry [RAction.tryA 0, RAction.retryA (some (RError.mk "Error" "x" 1)) 1 0, RAction.stopA] (initRetry {})).2 e now r).table.timers = [])
        ∧ (∀ id ∈ ((runRetry [RAction.tryA 0, RAction.retryA (some (RError.mk "Error" "x" 1)) 1 0, RAction.stopA] (initRetry {})).1.retry
              (runRetry [RAction.tryA 0, RAction.retryA (some (RError.mk "Error" "x" 1)) 1 0, RAction.stopA] (initRetry {})).2 e now r).table.timers,
            id ∉ (runRetry [RAction.tryA 0, RAction.retryA (some (RError.mk "Error" "x" 1)) 1 0, RAction.stopA] (initRetry {})).2.timers))
    ∧ ((runRetry [RAction.tryA 0, RAction.retryA (some (RError.mk "Error" "x" 1)) 1 0, RAction.stopA] (initRetry {})).1.stop
        (runRetry [RAction.tryA 0, RAction.retryA (some (RError.mk "Error" "x" 1)) 1 0, RAction.stopA] (initRetry {})).2).2.timers = []
    ∧ ((runRetry [RAction.tryA 0, RAction.retryA (some (RError.mk "Error" "x" 1)) 1 0, RAction.stopA] (initRetry {})).1.reset
        (runRetry [RAction.tryA 0, RAction.retryA (some (RError.mk "Error" "x" 1)) 1 0, RAction.stopA] (initRetry {})).2).2.timers = []) :=
  claim_C10 {} [RAction.tryA 0, RAction.retryA (some (RError.mk "Error" "x" 1)) 1 0, RAction.stopA]

end PromiseUtils
